import Mathlib

/-!
Verification development for the SEAREV time-series fitting script
(`fit_searev_data.py`).  The numerical routines of the script are embedded
shallowly over `ℚ` (exact arithmetic, the idealization of the script's
float arithmetic); numpy error conditions (index errors, broadcast
mismatches, singular linear systems) are modelled by `Option`, with `none`
standing for a raised exception.
-/

namespace Searev

/-- Elementwise product-sum of two equal-length vectors (`np.sum(a*b)` for
equal shapes); used as the basic dot product. -/
def dotL (a b : List ℚ) : ℚ :=
  (List.zipWith (fun u v => u * v) a b).sum

/-- Numpy 1-D broadcasting multiplication: shapes `(m,)` and `(n,)` are
compatible iff `m = n` or one of them is `1`; incompatible shapes raise a
`ValueError`, modelled as `none`. -/
def npMul (a b : List ℚ) : Option (List ℚ) :=
  if a.length = b.length then some (List.zipWith (fun u v => u * v) a b)
  else if a.length = 1 then some (b.map (fun v => a.getD 0 0 * v))
  else if b.length = 1 then some (a.map (fun u => u * b.getD 0 0))
  else none

/-- Python slice `x[:s]` where the stop `s` is the integer `N - h` (possibly
negative): for `h ≤ N` this is the first `N - h` elements, for `h > N` it is
`x[:-(h-N)]`, i.e. the first `2N - h` elements (clamped at `0`). -/
def pySliceStop (x : List ℚ) (h : Nat) : List ℚ :=
  if h ≤ x.length then x.take (x.length - h) else x.take (2 * x.length - h)

/-- Value written by the `acov` loop body at lag `h`:
`np.sum(x[h:] * x[:N-h]) / N`. -/
def acovAt (x : List ℚ) (h : Nat) : ℚ :=
  dotL (x.drop h) (pySliceStop x h) / (x.length : ℚ)

/-- Embedding of `acov(x, maxlags, lags=None)` from `fit_searev_data.py`:

    if lags is None: lags = range(maxlags+1)
    N = len(x)
    acov_x = np.zeros(len(lags))
    for h in lags:
        acov_x[h] = np.sum((x[h:]*x[:N-h]))/N
    return acov_x

Note the loop writes `acov_x[h]`, indexing the result by the *lag value*
`h`, not by its position in `lags`.  A write out of bounds (numpy
`IndexError`) or a broadcast mismatch in the product is `none`.
Lags are restricted to naturals (the script only ever passes those). -/
def acov (x : List ℚ) (maxlags : Nat) (lagsOpt : Option (List Nat)) :
    Option (List ℚ) :=
  let lags := lagsOpt.getD (List.range (maxlags + 1))
  let N := x.length
  lags.foldlM
    (fun acc h =>
      if h < acc.length then
        (npMul (x.drop h) (pySliceStop x h)).map
          (fun prod => acc.set h (prod.sum / (N : ℚ)))
      else none)
    (List.replicate lags.length 0)

/-- Embedding of `acf(x, maxlags, lags=None)`: the autocovariance divided
elementwise by its entry at index `0`. -/
def acf (x : List ℚ) (maxlags : Nat) (lagsOpt : Option (List Nat)) :
    Option (List ℚ) :=
  (acov x maxlags lagsOpt).map
    (fun acov_x => acov_x.map (fun v => v / acov_x.getD 0 0))

end Searev

namespace Searev

/- Helper lemmas about `List.set`/`getD`. -/

theorem getD_set_self {l : List ℚ} {h : Nat} (hh : h < l.length) (a d : ℚ) :
    (l.set h a).getD h d = a := by
  simp [List.getD, List.get?_eq_getElem?, List.getElem?_set_self hh]

theorem getD_set_ne {l : List ℚ} {h j : Nat} (hne : j ≠ h) (a d : ℚ) :
    (l.set h a).getD j d = l.getD j d := by
  simp [List.getD, List.get?_eq_getElem?, List.getElem?_set_ne (Ne.symm hne)]

/-- The `acov` loop, run over any list of in-range lags, succeeds and sets
each visited position `h` to `acovAt x h`, leaving other positions of the
accumulator untouched. -/
theorem acov_fold_spec (x : List ℚ) (L : List Nat) :
    ∀ acc : List ℚ, (∀ h ∈ L, h < acc.length ∧ h ≤ x.length) →
      ∃ r, (L.foldlM
        (fun acc h =>
          if h < acc.length then
            (npMul (x.drop h) (pySliceStop x h)).map
              (fun prod => acc.set h (prod.sum / (x.length : ℚ)))
          else none) acc) = some r ∧
        r.length = acc.length ∧
        (∀ j, r.getD j 0 = if j ∈ L then acovAt x j else acc.getD j 0) := by
  induction L with
  | nil =>
    intro acc _
    exact ⟨acc, rfl, rfl, fun j => by simp⟩
  | cons h rest ih =>
    intro acc hall
    obtain ⟨hlt, hle⟩ := hall h (by simp)
    have hlen : (x.drop h).length = (pySliceStop x h).length := by
      simp only [pySliceStop, if_pos hle, List.length_drop, List.length_take]
      omega
    have hmul : npMul (x.drop h) (pySliceStop x h) =
        some (List.zipWith (fun u v => u * v) (x.drop h) (pySliceStop x h)) := by
      unfold npMul
      rw [if_pos hlen]
    have hstep : (List.foldlM
        (fun acc h =>
          if h < acc.length then
            (npMul (x.drop h) (pySliceStop x h)).map
              (fun prod => acc.set h (prod.sum / (x.length : ℚ)))
          else none) acc (h :: rest)) =
        (List.foldlM
        (fun acc h =>
          if h < acc.length then
            (npMul (x.drop h) (pySliceStop x h)).map
              (fun prod => acc.set h (prod.sum / (x.length : ℚ)))
          else none) (acc.set h (acovAt x h)) rest) := by
      simp only [List.foldlM_cons, if_pos hlt, hmul, Option.map_some]
      rfl
    obtain ⟨r, hr, hrlen, hrget⟩ := ih (acc.set h (acovAt x h))
      (by
        intro h₂ hh₂
        have := hall h₂ (by simp [hh₂])
        simpa using this)
    refine ⟨r, ?_, by simpa using hrlen, ?_⟩
    · rw [hstep]; exact hr
    · intro j
      rw [hrget j]
      by_cases hj : j ∈ rest
      · simp [hj]
      · by_cases hjh : j = h
        · subst hjh
          rw [if_neg hj, if_pos (by simp), getD_set_self hlt]
        · rw [if_neg hj, if_neg (by simp [hjh, hj]), getD_set_ne hjh]

theorem getD_eq_getElem {l : List ℚ} {j : Nat} (hj : j < l.length) (d : ℚ) :
    l.getD j d = l[j] := by
  simp [List.getD, List.get?_eq_getElem?, List.getElem?_eq_getElem hj]

/-- Dense evaluation of `acov`: whenever `maxlags ≤ len x`, the call with
`lags = None` succeeds and returns the vector of the per-lag loop values
`acovAt x h` for `h = 0 .. maxlags`. -/
theorem acov_dense (x : List ℚ) (maxlags : Nat) (hml : maxlags ≤ x.length) :
    acov x maxlags none =
      some ((List.range (maxlags + 1)).map (acovAt x)) := by
  obtain ⟨r, hr, hrlen, hrget⟩ := acov_fold_spec x (List.range (maxlags + 1))
    (List.replicate (maxlags + 1) 0)
    (by
      intro h hh
      simp only [List.mem_range] at hh
      refine ⟨by simpa using hh, by omega⟩)
  have hacov : acov x maxlags none = some r := by
    unfold acov
    simpa using hr
  rw [hacov]
  congr 1
  have hlen : r.length = maxlags + 1 := by simpa using hrlen
  apply List.ext_getElem (by simpa using hlen)
  intro i h₁ h₂
  have hi : i < maxlags + 1 := by omega
  have := hrget i
  rw [if_pos (by simpa using hi)] at this
  rw [← getD_eq_getElem h₁ 0, this]
  simp [List.getElem_map, List.getElem_range]

end Searev

namespace Searev

/-- Counterexample to claim C4: the claim that `acov` fails for
`maxlags ≥ len x` is false: at
`x = [1, 2]` (length `2`) and `maxlags = 2`, `acov` returns a value
(entries `[5/2, 1, 0]`) instead of failing.  No `InvalidLagError` exists
in the code. -/
theorem acov_returns_at_maxlag_eq_len :
    acov [1, 2] 2 none = some [5/2, 1, 0] := by
  norm_num [acov, npMul, pySliceStop, List.foldlM, List.range_succ]
  rfl

/-- Claim C4 as amended: the code
performs no lag validation.  For `maxlags` equal to the sample length `N`
the call succeeds, returning the dense vector of loop values, whose entry at
lag `N` is `0` (empty slices), rather than raising any error. -/
theorem acov_no_validation_amended (x : List ℚ) :
    acov x x.length none =
      some ((List.range (x.length + 1)).map (acovAt x)) ∧
    ((List.range (x.length + 1)).map (acovAt x)).getD x.length 0 = 0 := by
  refine ⟨acov_dense x x.length le_rfl, ?_⟩
  have hlt : x.length < ((List.range (x.length + 1)).map (acovAt x)).length := by
    simp
  rw [getD_eq_getElem hlt]
  simp [List.getElem_map, List.getElem_range, acovAt, dotL, pySliceStop]

/-- Claim C5 (code bug): evaluation of `acov` at the failing input for the
sparse-lags variant:
with `x = [1, 2, 4]` and explicit lags `[1, 0]`, the loop writes
`acov_x[h]` indexed by the lag value, so the result is
`[acov(0), acov(1)] = [7, 10/3]`, not `[acov(lags[0]), acov(lags[1])]
= [10/3, 7]` as the docstring (covariance "at specific lags") promises. -/
theorem acov_sparse_lags_scatter :
    acov [1, 2, 4] 5 (some [1, 0]) = some [7, 10/3] ∧
    acov [1, 2, 4] 5 (some [1, 0]) ≠ some [10/3, 7] := by
  have h : acov [1, 2, 4] 5 (some [1, 0]) = some [7, 10/3] := by
    norm_num [acov, npMul, pySliceStop, List.foldlM]
    rfl
  refine ⟨h, ?_⟩
  rw [h]
  intro hc
  norm_num at hc

/-- Claim C6: for `maxlag < len x` and strictly positive empirical lag-0
autocovariance, the autocorrelation `acf x maxlag` has value exactly `1`
at lag `0`. -/
theorem acf_lag0_eq_one (x : List ℚ) (maxlag : Nat) (hml : maxlag < x.length)
    (hpos : 0 < acovAt x 0) :
    ∃ r, acf x maxlag none = some r ∧ r.getD 0 0 = 1 := by
  have hacov := acov_dense x maxlag (le_of_lt hml)
  refine ⟨((List.range (maxlag + 1)).map (acovAt x)).map
    (fun v => v / ((List.range (maxlag + 1)).map (acovAt x)).getD 0 0), ?_, ?_⟩
  · unfold acf
    rw [hacov]
    rfl
  · have h0 : (0 : Nat) < ((List.range (maxlag + 1)).map (acovAt x)).length := by
      simp
    have hv0 : ((List.range (maxlag + 1)).map (acovAt x)).getD 0 0 = acovAt x 0 := by
      rw [getD_eq_getElem h0]
      simp [List.getElem_map, List.getElem_range]
    have h0m : (0 : Nat) < (((List.range (maxlag + 1)).map (acovAt x)).map
        (fun v => v / ((List.range (maxlag + 1)).map (acovAt x)).getD 0 0)).length := by
      simp
    rw [getD_eq_getElem h0m]
    simp only [List.getElem_map, List.getElem_range, hv0]
    exact div_self (ne_of_gt hpos)

/-- Witness for `acf_lag0_eq_one` at `x = [1, 2]`, `maxlag = 1`. -/
theorem acf_lag0_eq_one_witness :
    1 < ([(1 : ℚ), 2]).length ∧ 0 < acovAt [1, 2] 0 ∧
    ∃ r, acf [1, 2] 1 none = some r ∧ r.getD 0 0 = 1 :=
  ⟨by decide, by norm_num [acovAt, dotL, pySliceStop],
    acf_lag0_eq_one [1, 2] 1 (by decide)
      (by norm_num [acovAt, dotL, pySliceStop])⟩

end Searev

namespace Searev

/-! ARMA analytic covariance engine (`arma_acov` in the script). -/

/-- An ARMA model `{'ar': ..., 'ma': ...}` as passed around by the script. -/
structure ArmaModel where
  ar : List ℚ
  ma : List ℚ
deriving DecidableEq

/-- Feed-forward part of `scipy.signal.lfilter` at output index `k`:
`Σ_{i < len num, i ≤ k} num[i] * x[k-i]`. -/
def convAt (num x : List ℚ) (k : Nat) : ℚ :=
  ((List.range num.length).map
    (fun i => if i ≤ k then num.getD i 0 * x.getD (k - i) 0 else 0)).sum

/-- Feedback part of `scipy.signal.lfilter` at output index `k`:
`Σ_{1 ≤ i < len den, i ≤ k} den[i] * y[k-i]` over the outputs built so far. -/
def feedbackAt (den y : List ℚ) (k : Nat) : ℚ :=
  ((List.range den.length).map
    (fun i => if 1 ≤ i ∧ i ≤ k then den.getD i 0 * y.getD (k - i) 0 else 0)).sum

/-- `scipy.signal.lfilter(num, den, x)`: the causal IIR filter
`y[k] = (Σ num[i] x[k-i] − Σ_{i≥1} den[i] y[k-i]) / den[0]`,
output length equal to the input length. -/
def lfilter (num den x : List ℚ) : List ℚ :=
  (List.range x.length).foldl
    (fun y k => y ++ [(convAt num x k - feedbackAt den y k) / den.getD 0 0])
    []

/-- `scipy.linalg.toeplitz(c, r)`: `M[i][j] = c[i-j]` for `j ≤ i`,
`r[j-i]` for `j > i`. -/
def toeplitzL (c r : List ℚ) : List (List ℚ) :=
  (List.range c.length).map (fun i =>
    (List.range r.length).map (fun j =>
      if j ≤ i then c.getD (i - j) 0 else r.getD (j - i) 0))

/-- Determinant of a square matrix given as a list of rows, by Laplace
expansion along the first row; the `Nat` argument is the size. -/
def detAux : Nat → List (List ℚ) → ℚ
  | 0, _ => 1
  | _ + 1, [] => 0
  | m + 1, row :: rest =>
      ((List.range (m + 1)).map
        (fun j => (-1 : ℚ) ^ j * row.getD j 0 *
          detAux m (rest.map (fun r => r.eraseIdx j)))).sum

/-- Replace column `j` of `A` by the vector `b`. -/
def replaceCol (A : List (List ℚ)) (j : Nat) (b : List ℚ) : List (List ℚ) :=
  List.zipWith (fun row bi => row.set j bi) A b

/-- `np.linalg.solve(A, b)` idealized over exact arithmetic: for a
nonsingular `A` the unique solution (here produced by Cramer's rule, which
agrees with any exact direct solve); a singular system raises
`LinAlgError`, modelled as `none`. -/
def linSolve (A : List (List ℚ)) (b : List ℚ) : Option (List ℚ) :=
  let n := A.length
  let d := detAux n A
  if d = 0 then none
  else some ((List.range n).map (fun j => detAux n (replaceCol A j b) / d))

/-- Initial linear-system part of `arma_acov(model, maxlags, innov_var)`:
impulse response, right-hand side `b`, folded Toeplitz system `A`, and the
direct solve producing `cov(0) .. cov(n)` with `n = max(p, q+1)`.

    ar_coef = np.asarray(model['ar']); ma_coef = np.asarray(model['ma'])
    p = len(ar_coef); q = len(ma_coef)
    delta = np.zeros(q+1); delta[0] = 1
    num = np.concatenate(([1], ma_coef))
    den = np.concatenate(([1], -np.array(ar_coef)))
    imp_res = sig.lfilter(num, den, delta)
    n = max(p, q+1)
    imp_res_rev = np.concatenate((imp_res[::-1], np.zeros(n)))
    b = sig.lfilter(num, [1], imp_res_rev); b = b[q:]; b = b*innov_var
    ar_coef_ext = np.zeros(n); ar_coef_ext[:p] = ar_coef
    r = np.concatenate((-ar_coef_ext[::-1], [1], np.zeros(n)))
    c = np.zeros(n+1); c[0] = -ar_coef_ext[-1]
    M = toeplitz(c, r)
    M_neg, M_0, M_pos = np.hsplit(M, (n, n+1))
    A = np.hstack((M_0, M_pos + M_neg[:,::-1]))
    cov_n = np.linalg.solve(A, b)

The `hstack`/`hsplit` composite is expressed entrywise:
`A[i][0] = M[i][n]` and `A[i][j] = M[i][n+j] + M[i][n-j]` for `j ≥ 1`. -/
def arma_acov_core (model : ArmaModel) (innov_var : ℚ) : Option (List ℚ) :=
  let ar_coef := model.ar
  let ma_coef := model.ma
  let p := ar_coef.length
  let q := ma_coef.length
  let delta : List ℚ := 1 :: List.replicate q 0
  let num : List ℚ := 1 :: ma_coef
  let den : List ℚ := 1 :: ar_coef.map (fun a => -a)
  let imp_res := lfilter num den delta
  let n := max p (q + 1)
  let imp_res_rev := imp_res.reverse ++ List.replicate n 0
  let b := ((lfilter num [1] imp_res_rev).drop q).map (fun v => v * innov_var)
  let ar_coef_ext := ar_coef ++ List.replicate (n - p) (0 : ℚ)
  let r := (ar_coef_ext.reverse.map (fun a => -a)) ++ [1] ++ List.replicate n 0
  let c : List ℚ := (-(ar_coef_ext.getLast?.getD 0)) :: List.replicate n 0
  let M := toeplitzL c r
  let A := (List.range (n + 1)).map (fun i =>
    (List.range (n + 1)).map (fun j =>
      if j = 0 then (M.getD i []).getD n 0
      else (M.getD i []).getD (n + j) 0 + (M.getD i []).getD (n - j) 0))
  linSolve A b

/-- One pass of the covariance-extension loop of `arma_acov`:

    cov[i] = np.inner(cov[i-p:i], ar_coef[::-1])

with `i` the index being filled, i.e. the current length of `cov`. -/
def covStep (ar_coef cov : List ℚ) : List ℚ :=
  cov ++ [((List.range ar_coef.length).map
    (fun k => cov.getD (cov.length - ar_coef.length + k) 0 *
      ar_coef.getD (ar_coef.length - 1 - k) 0)).sum]

/-- The loop `for i in range(n+1, maxlags+1)` of `arma_acov`, run for the
given number of steps starting from the solved core `cov(0..n)`. -/
def extendCov (ar_coef covInit : List ℚ) (steps : Nat) : List ℚ :=
  (List.range steps).foldl (fun cov _ => covStep ar_coef cov) covInit

/-- Embedding of `arma_acov(model, maxlags, innov_var=1.)`: solve for the
core lags `0..n`, then either truncate (`maxlags ≤ n`) or extend with the
pure-AR recurrence. -/
def arma_acov (model : ArmaModel) (maxlags : Nat) (innov_var : ℚ) :
    Option (List ℚ) :=
  let p := model.ar.length
  let n := max p (model.ma.length + 1)
  (arma_acov_core model innov_var).map (fun cov_n =>
    if maxlags ≤ n then cov_n.take (maxlags + 1)
    else extendCov model.ar cov_n (maxlags - n))

/-- Embedding of `arma_acf(model, maxlags)`: the analytic autocovariance at
unit innovation variance, normalized by its lag-0 entry. -/
def arma_acf (model : ArmaModel) (maxlags : Nat) : Option (List ℚ) :=
  (arma_acov model maxlags 1).map
    (fun acov => acov.map (fun v => v / acov.getD 0 0))

end Searev

namespace Searev

/-- The closed-form AR(1) autocovariance sequence `h ↦ φ^h / (1-φ²)`,
`h = 0 .. m`, against which the engine is checked. -/
def closedAR1 (phi : ℚ) (m : Nat) : List ℚ :=
  (List.range (m + 1)).map (fun h => phi ^ h / (1 - phi ^ 2))

/-- For a pure AR(1) model the analytically solved core `cov(0), cov(1)` is
`[1/(1-φ²), φ/(1-φ²)]` (the folded Toeplitz system is
`[[1, -φ], [-φ, 1]] · cov = [1, 0]`). -/
theorem arma_acov_core_ar1 (phi : ℚ) (hd : 1 - phi ^ 2 ≠ 0) :
    arma_acov_core ⟨[phi], []⟩ 1 = some [1 / (1 - phi ^ 2), phi / (1 - phi ^ 2)] := by
  have hA : arma_acov_core ⟨[phi], []⟩ 1 = linSolve [[1, -phi], [-phi, 1]] [1, 0] := by
    norm_num [arma_acov_core, lfilter, convAt, feedbackAt, toeplitzL, List.range_succ]
  rw [hA]
  have hdet : detAux 2 [[1, -phi], [-phi, 1]] = 1 - phi ^ 2 := by
    norm_num [detAux, List.range_succ]
    ring
  unfold linSolve
  simp only [List.length_cons, List.length_nil, Nat.zero_add, Nat.reduceAdd]
  rw [hdet, if_neg hd]
  norm_num [replaceCol, detAux, List.range_succ]

theorem extendCov_succ (ar init : List ℚ) (s : Nat) :
    extendCov ar init (s + 1) = covStep ar (extendCov ar init s) := by
  unfold extendCov
  rw [List.range_succ, List.foldl_append]
  rfl

theorem covStep_closedAR1 (phi : ℚ) (t : Nat) :
    covStep [phi] (closedAR1 phi t) = closedAR1 phi (t + 1) := by
  have hlen : (closedAR1 phi t).length = t + 1 := by simp [closedAR1]
  have hget : (closedAR1 phi t).getD t 0 = phi ^ t / (1 - phi ^ 2) := by
    rw [closedAR1, getD_eq_getElem (by simp)]
    simp [List.getElem_map, List.getElem_range]
  have happ : closedAR1 phi (t + 1) = closedAR1 phi t ++ [phi ^ (t + 1) / (1 - phi ^ 2)] := by
    unfold closedAR1
    rw [List.range_succ (n := t + 1), List.map_append]
    rfl
  rw [happ]
  unfold covStep
  congr 1
  simp only [List.length_cons, List.length_nil, hlen, List.range_succ, List.range_zero,
    List.nil_append, List.map_cons, List.map_nil, List.sum_cons, List.sum_nil]
  rw [show t + 1 - (0 + 1) + 0 = t by omega, hget]
  have hphi0 : [phi].getD (0 + 1 - 1 - 0) 0 = phi := rfl
  rw [hphi0, add_zero, div_mul_eq_mul_div, ← pow_succ]

theorem extend_closedAR1 (phi : ℚ) : ∀ s,
    extendCov [phi] (closedAR1 phi 1) s = closedAR1 phi (1 + s) := by
  intro s
  induction s with
  | zero => rfl
  | succ t ih =>
    rw [extendCov_succ, ih, covStep_closedAR1]
    try rw [Nat.add_assoc]

/-- Claim C1: for a pure AR(1) model `{ar: [φ], ma: []}` with `|φ| < 1` and
unit innovation variance, `arma_acov` returns, at every lag
`0 ≤ h ≤ maxlag`, the value `φ^h / (1 - φ²)`. -/
theorem arma_acov_ar1_closed_form (phi : ℚ) (maxlag : Nat) (hphi : |phi| < 1) :
    ∃ cov, arma_acov ⟨[phi], []⟩ maxlag 1 = some cov ∧
      ∀ h ≤ maxlag, cov.getD h 0 = phi ^ h / (1 - phi ^ 2) := by
  have hd : 1 - phi ^ 2 ≠ 0 := by
    rw [abs_lt] at hphi
    intro h
    nlinarith [hphi.1, hphi.2]
  have hcore := arma_acov_core_ar1 phi hd
  refine ⟨closedAR1 phi maxlag, ?_, ?_⟩
  · unfold arma_acov
    rw [hcore]
    simp only [Option.map_some', List.length_cons, List.length_nil, Nat.zero_add,
      Nat.reduceAdd, Nat.max_self, Option.some.injEq]
    by_cases hm : maxlag ≤ 1
    · rw [if_pos hm]
      interval_cases maxlag
      · simp [closedAR1, List.range_succ]
      · simp [closedAR1, List.range_succ]
    · rw [if_neg hm]
      have h1 : [1 / (1 - phi ^ 2), phi / (1 - phi ^ 2)] = closedAR1 phi 1 := by
        simp [closedAR1, List.range_succ]
      rw [h1, extend_closedAR1]
      congr 1
      omega
  · intro h hh
    unfold closedAR1
    rw [getD_eq_getElem (by simp; omega)]
    simp [List.getElem_map, List.getElem_range]

/-- Witness for `arma_acov_ar1_closed_form` at `φ = 1/2`, `maxlag = 3`. -/
theorem arma_acov_ar1_closed_form_witness :
    |(1 : ℚ)/2| < 1 ∧
    ∃ cov, arma_acov ⟨[1/2], []⟩ 3 1 = some cov ∧
      ∀ h ≤ 3, cov.getD h 0 = (1/2 : ℚ) ^ h / (1 - (1/2 : ℚ) ^ 2) :=
  ⟨by rw [abs_lt]; norm_num, arma_acov_ar1_closed_form (1/2) 3 (by rw [abs_lt]; norm_num)⟩

end Searev

namespace Searev

theorem covStep_length (ar cov : List ℚ) : (covStep ar cov).length = cov.length + 1 := by
  simp [covStep]

theorem covStep_getD_lt (ar cov : List ℚ) {j : Nat} (hj : j < cov.length) (d : ℚ) :
    (covStep ar cov).getD j d = cov.getD j d := by
  unfold covStep
  rw [getD_eq_getElem (by simp; omega), getD_eq_getElem hj,
    List.getElem_append_left hj]

theorem covStep_getD_last (ar cov : List ℚ) :
    (covStep ar cov).getD cov.length 0 =
      ((List.range ar.length).map
        (fun k => cov.getD (cov.length - ar.length + k) 0 *
          ar.getD (ar.length - 1 - k) 0)).sum := by
  unfold covStep
  rw [getD_eq_getElem (by simp)]
  rw [List.getElem_append_right (by omega)]
  simp

theorem extendCov_length (ar init : List ℚ) (s : Nat) :
    (extendCov ar init s).length = init.length + s := by
  induction s with
  | zero => rfl
  | succ t ih =>
    rw [extendCov_succ, covStep_length, ih]
    omega

theorem extendCov_recurrence (ar init : List ℚ) :
    ∀ s i, init.length ≤ i → i < init.length + s → ar.length ≤ i →
      (extendCov ar init s).getD i 0 =
        ((List.range ar.length).map
          (fun k => (extendCov ar init s).getD (i - ar.length + k) 0 *
            ar.getD (ar.length - 1 - k) 0)).sum := by
  intro s
  induction s with
  | zero =>
    intro i h1 h2 _
    omega
  | succ t ih =>
    intro i h1 h2 h3
    have hlenE : (extendCov ar init t).length = init.length + t :=
      extendCov_length ar init t
    rw [extendCov_succ]
    by_cases hi : i < init.length + t
    · rw [covStep_getD_lt _ _ (by omega) 0, ih i h1 hi h3]
      apply congrArg List.sum
      apply List.map_congr_left
      intro k hk
      simp only [List.mem_range] at hk
      rw [covStep_getD_lt _ _ (by omega) 0]
    · have hieq : i = (extendCov ar init t).length := by omega
      rw [hieq, covStep_getD_last]
      apply congrArg List.sum
      apply List.map_congr_left
      intro k hk
      simp only [List.mem_range] at hk
      rw [covStep_getD_lt _ _ (by omega) 0]

theorem sum_range_reverse (f : Nat → ℚ) (p : Nat) :
    ((List.range p).map f).sum = ((List.range p).map (fun k => f (p - 1 - k))).sum := by
  have h1 : ((List.range p).map f).sum = ∑ i in Finset.range p, f i := rfl
  have h2 : ((List.range p).map (fun k => f (p - 1 - k))).sum =
      ∑ i in Finset.range p, f (p - 1 - i) := rfl
  rw [h1, h2, Finset.sum_range_reflect]

end Searev

namespace Searev

theorem linSolve_length {A : List (List ℚ)} {b l : List ℚ}
    (h : linSolve A b = some l) : l.length = A.length := by
  unfold linSolve at h
  dsimp only at h
  split at h
  · exact absurd h (by simp)
  · obtain rfl : (List.range A.length).map
        (fun j => detAux A.length (replaceCol A j b) / detAux A.length A) = l := by
      simpa using h
    simp

theorem arma_acov_core_length {model : ArmaModel} {iv : ℚ} {cov_n : List ℚ}
    (h : arma_acov_core model iv = some cov_n) :
    cov_n.length = max model.ar.length (model.ma.length + 1) + 1 := by
  unfold arma_acov_core at h
  have hl := linSolve_length h
  rw [hl]
  simp

/-- Claim C2: for any ARMA model, whenever `maxlags > n` with
`n = max(p, q+1)` and `arma_acov` succeeds, the returned sequence satisfies
the pure-AR recurrence `cov(i) = Σ_{k=1..p} ar_coef[k] · cov(i-k)` at every
index `n+1 ≤ i ≤ maxlags`; in particular, for a pure MA model (`p = 0`)
every entry beyond `n` is `0`. -/
theorem arma_acov_tail_recurrence (model : ArmaModel) (maxlags : Nat) (iv : ℚ)
    (cov : List ℚ)
    (hml : max model.ar.length (model.ma.length + 1) < maxlags)
    (hres : arma_acov model maxlags iv = some cov) :
    ∀ i, max model.ar.length (model.ma.length + 1) + 1 ≤ i → i ≤ maxlags →
      cov.getD i 0 =
        ((List.range model.ar.length).map
          (fun k => model.ar.getD k 0 * cov.getD (i - (k + 1)) 0)).sum ∧
      (model.ar.length = 0 → cov.getD i 0 = 0) := by
  intro i hi1 hi2
  unfold arma_acov at hres
  cases hc : arma_acov_core model iv with
  | none =>
    rw [hc] at hres
    exact absurd hres (by simp)
  | some cov_n =>
    rw [hc] at hres
    simp only [Option.map_some', Option.some.injEq] at hres
    rw [if_neg (by omega)] at hres
    have hlen : cov_n.length = max model.ar.length (model.ma.length + 1) + 1 :=
      arma_acov_core_length hc
    have hrecur := extendCov_recurrence model.ar cov_n
      (maxlags - max model.ar.length (model.ma.length + 1)) i
      (by omega)
      (by omega)
      (by omega)
    rw [hres] at hrecur
    constructor
    · rw [hrecur,
        sum_range_reverse (fun k => model.ar.getD k 0 * cov.getD (i - (k + 1)) 0)
          model.ar.length]
      apply congrArg List.sum
      apply List.map_congr_left
      intro k hk
      simp only [List.mem_range] at hk
      rw [show i - model.ar.length + k =
        i - (model.ar.length - 1 - k + 1) from by omega]
      ring
    · intro hp
      rw [hrecur]
      simp [hp]

/-- Witness for `arma_acov_tail_recurrence` at the AR(1) model `φ = 1/2`,
`maxlags = 3`, lag `i = 2`, where `arma_acov` returns
`[4/3, 2/3, 1/3, 1/6]`. -/
theorem arma_acov_tail_recurrence_witness :
    ([(4 : ℚ)/3, 2/3, 1/3, 1/6]).getD 2 0 =
      ((List.range ([(1 : ℚ)/2]).length).map
        (fun k => ([(1 : ℚ)/2]).getD k 0 *
          ([(4 : ℚ)/3, 2/3, 1/3, 1/6]).getD (2 - (k + 1)) 0)).sum ∧
    (([(1 : ℚ)/2]).length = 0 → ([(4 : ℚ)/3, 2/3, 1/3, 1/6]).getD 2 0 = 0) :=
  arma_acov_tail_recurrence ⟨[1/2], []⟩ 3 1 [4/3, 2/3, 1/3, 1/6]
    (by norm_num)
    (by norm_num [arma_acov, arma_acov_core, lfilter, convAt, feedbackAt,
      toeplitzL, detAux, linSolve, replaceCol, extendCov, covStep,
      List.range_succ])
    2 (by norm_num) (by norm_num)

end Searev

namespace Searev

/-! State-space conversion, trajectory loops and the torque command law. -/

/-- Conversion of AR(2) coefficients to the state-space transition matrix,
from the script:

    T_AR2 = np.array([[p1+p2,     -dt*p2],
                      [(p1+p2-1)/dt, -p2]])
-/
def T_AR2 (p1 p2 dt : ℚ) : List (List ℚ) :=
  [[p1 + p2, -dt * p2],
   [(p1 + p2 - 1) / dt, -p2]]

/-- Counterexample to claim C3: the spec's hand-computed matrix for
`(φ1, φ2) = (0.9, -0.05)`,
`Δt = 0.1` is wrong: the code's `T_AR2` does not equal
`[[0.85, 0.005], [-0.95, 0.05]]` (entry (1,0) differs by `0.55`,
far beyond floating-point tolerance). -/
theorem T_AR2_spec_value_false :
    T_AR2 (9/10) (-(1/20)) (1/10) ≠ [[17/20, 1/200], [-19/20, 1/20]] := by
  intro h
  simp only [T_AR2, List.cons.injEq] at h
  norm_num at h

/-- Claim C3 as amended: `T_AR2(0.9, -0.05)` with `Δt = 0.1` is
`[[0.85, 0.005], [-1.5, 0.05]]`; the entry `(1,0)` is
`(φ1 + φ2 - 1)/Δt = (0.85 - 1)/0.1 = -1.5`. -/
theorem T_AR2_correct_value :
    T_AR2 (9/10) (-(1/20)) (1/10) = [[17/20, 1/200], [-3/2, 1/20]] := by
  norm_num [T_AR2]

/-- `np.dot(T, v)` for a matrix given as a list of rows. -/
def matVecL (T : List (List ℚ)) (v : List ℚ) : List ℚ :=
  T.map (fun row => dotL row v)

/-- Elementwise vector addition. -/
def vecAddL (a b : List ℚ) : List ℚ :=
  List.zipWith (fun u v => u + v) a b

/-- Deterministic multi-step prediction loop of the script:
`X_prev[:,i] = np.dot(T, X_prev[:,i-1])`, `X_prev[:,0] = x0`. -/
def X_prev (T : List (List ℚ)) (x0 : List ℚ) : Nat → List ℚ
  | 0 => x0
  | i + 1 => matVecL T (X_prev T x0 i)

/-- Stochastic simulation loop of the script:
`X_traj[:,i] = np.dot(T, X_traj[:,i-1]) + err_sim[:,i-1]`, `X_traj[:,0] = x0`,
with `err_sim` the sequence of innovation draws
(`rnd.multivariate_normal([0,0], innov_cov, maxlags).T`). -/
def X_traj (T : List (List ℚ)) (x0 : List ℚ) (err_sim : Nat → List ℚ) :
    Nat → List ℚ
  | 0 => x0
  | i + 1 => vecAddL (matVecL T (X_traj T x0 err_sim i)) (err_sim i)

theorem vecAddL_zero (l : List ℚ) : vecAddL l (List.replicate l.length 0) = l := by
  unfold vecAddL
  induction l with
  | nil => rfl
  | cons a t ih =>
    simp only [List.length_cons, List.replicate_succ, List.zipWith_cons_cons, add_zero]
    rw [ih]

/-- Claim C9: when every innovation draw is the zero vector (which is what
`multivariate_normal` with `Σ = 0` produces), the simulated trajectory
coincides with the deterministic prediction at every step. -/
theorem X_traj_zero_noise_eq_prediction (T : List (List ℚ)) (x0 : List ℚ)
    (err_sim : Nat → List ℚ)
    (herr : ∀ i, err_sim i = List.replicate T.length 0) :
    ∀ i, X_traj T x0 err_sim i = X_prev T x0 i := by
  intro i
  induction i with
  | zero => rfl
  | succ t ih =>
    show vecAddL (matVecL T (X_traj T x0 err_sim t)) (err_sim t) = _
    rw [ih, herr t]
    have hlen : (matVecL T (X_prev T x0 t)).length = T.length := by
      simp [matVecL]
    rw [← hlen, vecAddL_zero]
    rfl

/-- Witness for `X_traj_zero_noise_eq_prediction` on a concrete 2×2 system. -/
theorem X_traj_zero_noise_eq_prediction_witness :
    X_traj [[0, 1], [1, 1]] [1, 2] (fun _ => [0, 0]) 3 =
      X_prev [[0, 1], [1, 1]] [1, 2] 3 :=
  X_traj_zero_noise_eq_prediction [[0, 1], [1, 1]] [1, 2] (fun _ => [0, 0])
    (fun _ => rfl) 3

end Searev

namespace Searev

/-- Damping coefficient of the script, `damp = 4.e6` N/(rad/s). -/
def damp : ℚ := 4000000

/-- Maximum torque, `torque_max = 2e6` N·m. -/
def torque_max : ℚ := 2000000

/-- Maximum power, `power_max = 1.1e6` W. -/
def power_max : ℚ := 1100000

/-- First two stages of `torque_law`: `tor = speed*damp` clipped to
`±torque_max` by the two `np.where` saturations. -/
def clippedTorque (speed : ℚ) : ℚ :=
  let tor := speed * damp
  let tor := if tor > torque_max then torque_max else tor
  if tor < -torque_max then -torque_max else tor

/-- Embedding of `torque_law(speed)` (scalar semantics of the elementwise
`np.where` chain): clip `speed*damp` to `±torque_max`, then if the
resulting power exceeds `power_max`, replace the torque by
`power_max/speed`. -/
def torque_law (speed : ℚ) : ℚ :=
  if clippedTorque speed * speed > power_max then power_max / speed
  else clippedTorque speed

theorem clippedTorque_abs_le (s : ℚ) : |clippedTorque s| ≤ torque_max := by
  simp only [clippedTorque, damp, torque_max]
  split_ifs with h1 h2 <;> rw [abs_le] <;> constructor <;> linarith

/-- Claim C10: the returned torque always satisfies both saturation bounds
(`|torque| ≤ torque_max` and `torque·speed ≤ power_max`), and when the
power-limit branch fires it yields exactly `power_max` with a torque
magnitude strictly below `torque_max`. -/
theorem torque_law_saturation (s : ℚ) :
    |torque_law s| ≤ torque_max ∧
    torque_law s * s ≤ power_max ∧
    (clippedTorque s * s > power_max →
      torque_law s * s = power_max ∧ |torque_law s| < torque_max) := by
  have habs := clippedTorque_abs_le s
  by_cases hfire : clippedTorque s * s > power_max
  · have h1 : clippedTorque s * s ≤ |clippedTorque s| * |s| := by
      rw [← abs_mul]
      exact le_abs_self _
    have h2 : |clippedTorque s| * |s| ≤ torque_max * |s| :=
      mul_le_mul_of_nonneg_right habs (abs_nonneg s)
    have hs : 11/20 < |s| := by
      simp only [torque_max, power_max] at h2 hfire ⊢
      nlinarith [abs_nonneg s]
    have hs0 : s ≠ 0 := by
      intro h
      rw [h] at hs
      simp at hs
      linarith
    have htl : torque_law s = power_max / s := by
      unfold torque_law
      rw [if_pos hfire]
    have hmul : torque_law s * s = power_max := by
      rw [htl]
      exact div_mul_cancel₀ power_max hs0
    have habs2 : |torque_law s| < torque_max := by
      rw [htl, abs_div]
      rw [div_lt_iff₀ (abs_pos.mpr hs0)]
      have : |power_max| = power_max := by
        simp only [power_max]
        norm_num
      rw [this]
      simp only [power_max, torque_max] at hs ⊢
      nlinarith
    exact ⟨le_of_lt habs2, le_of_eq hmul, fun _ => ⟨hmul, habs2⟩⟩
  · have htl : torque_law s = clippedTorque s := by
      unfold torque_law
      rw [if_neg hfire]
    push_neg at hfire
    exact ⟨by rw [htl]; exact habs, by rw [htl]; exact hfire,
      fun h => absurd h (by rw [not_lt]; exact hfire)⟩

/-- Witness for `torque_law_saturation` at `speed = 1` (where the
power-limit branch fires: the clipped torque is `2·10⁶` and the power
`2·10⁶ > 1.1·10⁶`). -/
theorem torque_law_saturation_witness :
    |torque_law 1| ≤ torque_max ∧
    torque_law 1 * 1 ≤ power_max ∧
    (clippedTorque 1 * 1 > power_max →
      torque_law 1 * 1 = power_max ∧ |torque_law 1| < torque_max) :=
  torque_law_saturation 1

end Searev

namespace Searev

/-! AR-by-ACF fitter (`ar_acf_fit` in the script). -/

/-- Matrix transpose over the first `cols` columns (rows given as lists;
entries beyond a row's length read as `0`). -/
def transposeL (A : List (List ℚ)) (cols : Nat) : List (List ℚ) :=
  (List.range cols).map (fun j => A.map (fun row => row.getD j 0))

/-- `np.linalg.lstsq(X, y)` idealized over exact arithmetic: the
least-squares solution obtained from the normal equations `XᵀX β = Xᵀy`
(`p` is the number of columns of `X`); exact for a full-column-rank design
matrix, `none` when the normal system is singular. -/
def lstsqQ (X : List (List ℚ)) (y : List ℚ) (p : Nat) : Option (List ℚ) :=
  let Xt := transposeL X p
  linSolve (Xt.map (fun ri => Xt.map (fun rj => dotL ri rj)))
    (Xt.map (fun ri => dotL ri y))

/-- Regressor matrix of `ar_acf_fit`:

    X = np.zeros((n-p, p))
    for i in range(p):
        X[:,i] = x[i+1:n-p+i+1]

i.e. row `t`, column `i` holds `x[t+i+1]`; `n-p` rows, `p` columns. -/
def designX (x : List ℚ) (p : Nat) : List (List ℚ) :=
  (List.range (x.length - p)).map (fun t =>
    (List.range p).map (fun i => x.getD (t + i + 1) 0))

/-- Objective `cov_objective(ar_coef)` of `ar_acf_fit`: the mean squared
difference between the model acf and the empirical acf up to `maxlags`
(a numpy exception inside the opaque optimizer is not modelled: `0`). -/
def cov_objective (x : List ℚ) (maxlags : Nat) (ar_coef : List ℚ) : ℚ :=
  match arma_acf ⟨ar_coef, []⟩ maxlags, acf x maxlags none with
  | some u, some v =>
      (List.zipWith (fun a b => (a - b) ^ 2) u v).sum / ((maxlags + 1 : Nat) : ℚ)
  | _, _ => 0

/-- Embedding of `ar_acf_fit(x, p, maxlags)`: seed by least squares on the
one-step regression, optionally optimize the acf objective, then rescale the
residual variance via `res_var = (acov(x,0)/arma_acov({ar, ma: []}, 0))[0]`.
The derivative-free optimizer `scipy.optimize.fmin` is an opaque numerical
routine and is passed in as the parameter `fmin` (taking the objective and
the seed); when `maxlags` is `None` the optimizer is skipped. -/
def ar_acf_fit (fmin : (List ℚ → ℚ) → List ℚ → List ℚ) (x : List ℚ) (p : Nat)
    (maxlagsOpt : Option Nat) : Option (List ℚ × ℚ) :=
  let n := x.length
  let X := designX x p
  let y := x.take (n - p)
  (lstsqQ X y p).bind (fun ar_coef0 =>
    let ar_coef :=
      match maxlagsOpt with
      | some maxlags => fmin (cov_objective x maxlags) ar_coef0
      | none => ar_coef0
    (acov x 0 none).bind (fun a =>
      (arma_acov ⟨ar_coef, []⟩ 0 1).map (fun g =>
        (ar_coef, (List.zipWith (fun u v => u / v) a g).getD 0 0))))

/-- The regression described by the claim, built by columns: for
`i = 0..p-1`, column `i` holds `x` lagged by `i+1` samples, trimmed to
length `N - p`; the matrix is the row-major transpose of those columns. -/
def seedRegressionSpec (x : List ℚ) (p : Nat) : List (List ℚ) :=
  transposeL ((List.range p).map (fun i => (x.drop (i + 1)).take (x.length - p)))
    (x.length - p)

/-- The code's regressor matrix coincides with the claim's description of
the regression. -/
theorem designX_eq_spec (x : List ℚ) (p : Nat) (hp : p ≤ x.length) :
    designX x p = seedRegressionSpec x p := by
  unfold designX seedRegressionSpec transposeL
  apply List.ext_getElem (by simp)
  intro t h1 h2
  simp only [List.getElem_map, List.getElem_range]
  apply List.ext_getElem (by simp)
  intro i g1 g2
  simp only [List.getElem_map, List.getElem_range]
  have ht : t < x.length - p := by simpa using h1
  have hi : i < p := by simpa using g2
  rw [getD_eq_getElem (l := x) (by omega)]
  rw [getD_eq_getElem (by simp; omega)]
  simp only [List.getElem_take, List.getElem_drop]
  congr 1
  omega

/-- Claim C7: when `maxlags` is `None`, `ar_acf_fit` skips the optimization
step and returns as AR coefficients exactly the ordinary-least-squares seed
of the regression in which column `i` holds `x` lagged by `i+1` samples and
the target is `x` trimmed to length `N - p`. -/
theorem ar_acf_fit_none_returns_seed
    (fmin : (List ℚ → ℚ) → List ℚ → List ℚ) (x : List ℚ) (p : Nat)
    (r : List ℚ × ℚ) (hp : p ≤ x.length)
    (h : ar_acf_fit fmin x p none = some r) :
    lstsqQ (seedRegressionSpec x p) (x.take (x.length - p)) p = some r.1 := by
  rw [← designX_eq_spec x p hp]
  unfold ar_acf_fit at h
  dsimp only at h
  cases hls : lstsqQ (designX x p) (x.take (x.length - p)) p with
  | none =>
    rw [hls] at h
    exact absurd h (by simp)
  | some seed =>
    rw [hls] at h
    simp only [Option.some_bind] at h
    cases ha : acov x 0 none with
    | none =>
      rw [ha] at h
      exact absurd h (by simp)
    | some a =>
      rw [ha] at h
      simp only [Option.some_bind] at h
      cases hg : arma_acov ⟨seed, []⟩ 0 1 with
      | none =>
        rw [hg] at h
        exact absurd h (by simp)
      | some g =>
        rw [hg] at h
        simp only [Option.map_some', Option.some.injEq] at h
        rw [← h]

end Searev
namespace Searev

/-- At `maxlags = 0` the analytic autocovariance, when it succeeds, is a
single lag-0 value. -/
theorem arma_acov_zero_singleton {model : ArmaModel} {iv : ℚ} {g : List ℚ}
    (h : arma_acov model 0 iv = some g) : ∃ g0, g = [g0] := by
  unfold arma_acov at h
  cases hc : arma_acov_core model iv with
  | none =>
    rw [hc] at h
    exact absurd h (by simp)
  | some cov_n =>
    rw [hc] at h
    simp only [Option.map_some', Option.some.injEq] at h
    rw [if_pos (by omega)] at h
    have hlen := arma_acov_core_length hc
    cases cov_n with
    | nil => simp at hlen
    | cons c0 t => exact ⟨c0, by rw [← h]; simp⟩

/-- Rescaling identity for the common tail of `ar_acf_fit`, for an
arbitrary coefficient vector `c` (seed or optimizer output). -/
theorem res_var_of_bind (c : List ℚ) (x : List ℚ) (r : List ℚ × ℚ)
    (h : (acov x 0 none).bind (fun a => (arma_acov ⟨c, []⟩ 0 1).map
      (fun g => (c, (List.zipWith (fun u v => u / v) a g).getD 0 0))) = some r) :
    ∃ g, arma_acov ⟨r.1, []⟩ 0 1 = some g ∧
      r.2 = acovAt x 0 / g.getD 0 0 ∧
      (g.getD 0 0 ≠ 0 → r.2 * g.getD 0 0 = acovAt x 0) := by
  have ha : acov x 0 none = some [acovAt x 0] := by
    have := acov_dense x 0 (Nat.zero_le _)
    simpa [List.range_succ] using this
  rw [ha] at h
  simp only [Option.some_bind] at h
  cases hg : arma_acov ⟨c, []⟩ 0 1 with
  | none =>
    rw [hg] at h
    exact absurd h (by simp)
  | some g =>
    rw [hg] at h
    simp only [Option.map_some', Option.some.injEq] at h
    obtain ⟨g0, rfl⟩ := arma_acov_zero_singleton hg
    rw [← h]
    refine ⟨[g0], hg, ?_, ?_⟩
    · rfl
    · intro hne
      show acovAt x 0 / g0 * g0 = acovAt x 0
      exact div_mul_cancel₀ (acovAt x 0) (by simpa using hne)

/-- Claim C8: the residual variance returned by `ar_acf_fit` is the
empirical lag-0 autocovariance of `x` divided by the fitted model's
analytic lag-0 autocovariance at unit innovation variance; hence (whenever
that model variance is nonzero) `res_var` times the model variance equals
the empirical lag-0 variance exactly. -/
theorem ar_acf_fit_res_var_rescaling
    (fmin : (List ℚ → ℚ) → List ℚ → List ℚ) (x : List ℚ) (p : Nat)
    (maxlagsOpt : Option Nat) (r : List ℚ × ℚ)
    (h : ar_acf_fit fmin x p maxlagsOpt = some r) :
    ∃ g, arma_acov ⟨r.1, []⟩ 0 1 = some g ∧
      r.2 = acovAt x 0 / g.getD 0 0 ∧
      (g.getD 0 0 ≠ 0 → r.2 * g.getD 0 0 = acovAt x 0) := by
  unfold ar_acf_fit at h
  dsimp only at h
  cases hls : lstsqQ (designX x p) (x.take (x.length - p)) p with
  | none =>
    rw [hls] at h
    exact absurd h (by simp)
  | some seed =>
    rw [hls] at h
    simp only [Option.some_bind] at h
    cases maxlagsOpt with
    | none => exact res_var_of_bind seed x r h
    | some m => exact res_var_of_bind (fmin (cov_objective x m) seed) x r h

end Searev
namespace Searev

/-- Concrete run of `ar_acf_fit` without optimization on `x = [1, 2, 4]`,
`p = 1`: the seed is `[1/2]` and the rescaled residual variance
`7 / (4/3) = 21/4`. -/
theorem ar_acf_fit_eval_example :
    ar_acf_fit (fun _ c => c) [1, 2, 4] 1 none = some ([1/2], 21/4) := by
  have h1 : lstsqQ (designX [1, 2, 4] 1)
      (List.take (([1, 2, 4] : List ℚ).length - 1) [1, 2, 4]) 1 = some [1/2] := by
    norm_num [lstsqQ, designX, transposeL, dotL, linSolve, detAux, replaceCol,
      List.range_succ]
  have h2 : acov ([1, 2, 4] : List ℚ) 0 none = some [7] := by
    have hd := acov_dense ([1, 2, 4] : List ℚ) 0 (by norm_num)
    rw [hd]
    norm_num [acovAt, dotL, pySliceStop, List.range_succ]
  have h3 : arma_acov ⟨[(1 : ℚ)/2], []⟩ 0 1 = some [4/3] := by
    norm_num [arma_acov, arma_acov_core, lfilter, convAt, feedbackAt, toeplitzL,
      detAux, linSolve, replaceCol, List.range_succ]
  unfold ar_acf_fit
  dsimp only
  rw [h1]
  simp only [Option.some_bind]
  rw [h2]
  simp only [Option.some_bind]
  rw [h3]
  simp only [Option.map_some', Option.some.injEq]
  norm_num

/-- Witness for `ar_acf_fit_none_returns_seed` on `x = [1, 2, 4]`, `p = 1`. -/
theorem ar_acf_fit_none_returns_seed_witness :
    (1 ≤ ([(1 : ℚ), 2, 4]).length) ∧
    lstsqQ (seedRegressionSpec [(1 : ℚ), 2, 4] 1)
      (([(1 : ℚ), 2, 4]).take (([(1 : ℚ), 2, 4]).length - 1)) 1 =
      some (([(1 : ℚ)/2], (21 : ℚ)/4)).1 :=
  ⟨by decide, ar_acf_fit_none_returns_seed (fun _ c => c) [1, 2, 4] 1 ([1/2], 21/4)
    (by decide) ar_acf_fit_eval_example⟩

/-- Witness for `ar_acf_fit_res_var_rescaling` on `x = [1, 2, 4]`, `p = 1`. -/
theorem ar_acf_fit_res_var_rescaling_witness :
    ∃ g, arma_acov ⟨(([(1 : ℚ)/2], (21 : ℚ)/4)).1, []⟩ 0 1 = some g ∧
      (([(1 : ℚ)/2], (21 : ℚ)/4)).2 = acovAt [1, 2, 4] 0 / g.getD 0 0 ∧
      (g.getD 0 0 ≠ 0 →
        (([(1 : ℚ)/2], (21 : ℚ)/4)).2 * g.getD 0 0 = acovAt [1, 2, 4] 0) :=
  ar_acf_fit_res_var_rescaling (fun _ c => c) [1, 2, 4] 1 none ([1/2], 21/4)
    ar_acf_fit_eval_example

end Searev
